import Mathlib

/-!
Verification development for the beancount-blue plugins.

Python `Decimal` values are modelled as exact rationals (`ℚ`): the source
performs additions, subtractions and multiplications that are exact in
`Decimal`, and the divisions it performs are modelled by exact rational
division.  Python's `round(x, d)` on a `Decimal` (bankers' rounding,
`ROUND_HALF_EVEN`) is modelled by `Amortize.roundTo`.  Dates are modelled
as integers (a day index for transaction dates, a month index for
amortization buckets); `timedelta(days=1)` is subtraction of `1`.
-/

namespace BeancountBlue

namespace Amortize

/-- Round half to even to the nearest integer, the rounding used by Python's
built-in `round` on `Decimal` values (`ROUND_HALF_EVEN`). -/
def roundHalfEven (x : ℚ) : ℤ :=
  let fl := Int.floor x
  let r := x - fl
  if r < 1/2 then fl
  else if 1/2 < r then fl + 1
  else if fl % 2 = 0 then fl else fl + 1

/-- Python `round(x, d)` for a `Decimal` `x` and `d` decimal places. -/
def roundTo (d : ℕ) (x : ℚ) : ℚ := (roundHalfEven (x * 10 ^ d) : ℚ) / 10 ^ d

/-- The installment loop of `amortize.py` (lines 143-149), for one posting:

    for i in range(amort_months):
        cashflow_amt = Decimal(round(remaining_amt / (amort_months - i), decimals))
        cashflow_date = entry.date + relativedelta(months=i) + relativedelta(day=31)
        cashflow[key][cashflow_date] += cashflow_amt
        remaining_amt -= cashflow_amt

The recursion counts down the number of months still to fill, so the
divisor `amort_months - i` is `n` at the step where `n` months remain; the
month index records which month-end bucket the installment lands in. -/
def scheduleLoop (decimals : ℕ) : ℕ → ℤ → ℚ → List (ℤ × ℚ)
  | 0, _, _ => []
  | n + 1, month, remaining =>
    let amt := roundTo decimals (remaining / ((n : ℚ) + 1))
    (month, amt) :: scheduleLoop decimals n (month + 1) (remaining - amt)

/-- The number of months used for one posting (`amortize.py` lines 139-142):
the account's configured `months`, unless the entry's metadata carries an
`amortization_months` key, which overrides it. -/
def postingMonths (configMonths : ℤ) (metaMonths : Option ℤ) : ℤ :=
  match metaMonths with
  | some m => m
  | none => configMonths

/-- The full schedule generated for one posting of the tracked account
(`amortize.py` lines 138-149): `remaining_amt` starts at
`-1 * post.units.number`, and the loop runs for `amort_months` iterations
(`range` of a non-positive count is empty, hence `Int.toNat`). -/
def postingSchedule (configMonths : ℤ) (metaMonths : Option ℤ) (decimals : ℕ)
    (startMonth : ℤ) (unitsNumber : ℚ) : List (ℤ × ℚ) :=
  scheduleLoop decimals (postingMonths configMonths metaMonths).toNat startMonth (-unitsNumber)

/-- Rounding an integer-valued rational is the identity. -/
theorem roundHalfEven_intCast (k : ℤ) : roundHalfEven (k : ℚ) = k := by
  simp [roundHalfEven]

/-- Rounding a value that already has at most `d` decimal places is the
identity. -/
theorem roundTo_eq_self (d : ℕ) (x : ℚ) (h : ∃ k : ℤ, x = (k : ℚ) / 10 ^ d) :
    roundTo d x = x := by
  obtain ⟨k, rfl⟩ := h
  have h10 : ((10 : ℚ) ^ d) ≠ 0 := by positivity
  unfold roundTo
  rw [div_mul_cancel₀ _ h10, roundHalfEven_intCast]

/-- Every rounded value has at most `d` decimal places. -/
theorem roundTo_isDecimal (d : ℕ) (x : ℚ) :
    ∃ k : ℤ, roundTo d x = (k : ℚ) / 10 ^ d :=
  ⟨roundHalfEven (x * 10 ^ d), rfl⟩

theorem scheduleLoop_length (d : ℕ) (n : ℕ) (m : ℤ) (s : ℚ) :
    (scheduleLoop d n m s).length = n := by
  induction n generalizing m s with
  | zero => simp [scheduleLoop]
  | succ n ih => simp [scheduleLoop, ih]

/-- Claim C5 (amended): for a lump amount `s` that is representable with at
most `decimals` decimal places, amortized over `n ≥ 1` months, the
installments produced by
`installment_i = round(remaining / (months - i), decimals); remaining -= installment_i`
sum to `s` exactly. -/
theorem amortize_sum_exact (d : ℕ) (n : ℕ) (m : ℤ) (s : ℚ) (hn : 1 ≤ n)
    (hs : ∃ k : ℤ, s = (k : ℚ) / 10 ^ d) :
    ((scheduleLoop d n m s).map (fun p => p.2)).sum = s := by
  induction n generalizing m s with
  | zero => omega
  | succ n ih =>
    rcases Nat.eq_zero_or_pos n with hn0 | hnpos
    · subst hn0
      simp only [scheduleLoop, List.map_cons, List.map_nil, List.sum_cons,
        List.sum_nil, add_zero]
      rw [Nat.cast_zero, zero_add, div_one]
      exact roundTo_eq_self d s hs
    · obtain ⟨k, rfl⟩ := hs
      simp only [scheduleLoop, List.map_cons, List.sum_cons]
      set a := roundTo d ((k : ℚ) / 10 ^ d / ((n : ℚ) + 1)) with ha
      obtain ⟨j, hj⟩ := roundTo_isDecimal d ((k : ℚ) / 10 ^ d / ((n : ℚ) + 1))
      have hsub : (k : ℚ) / 10 ^ d - a = ((k - j : ℤ) : ℚ) / 10 ^ d := by
        rw [ha, hj]
        push_cast
        ring
      rw [ih _ _ hnpos ⟨k - j, hsub⟩]
      ring

/-- Witness for `amortize_sum_exact`: 1200 over 12 months at 2 decimals sums
back to 1200 exactly. -/
theorem amortize_sum_exact_witness :
    (1 ≤ 12 ∧ ∃ k : ℤ, (1200 : ℚ) = (k : ℚ) / 10 ^ 2) ∧
      ((scheduleLoop 2 12 0 (1200 : ℚ)).map (fun p => p.2)).sum = 1200 :=
  ⟨⟨by norm_num, ⟨120000, by norm_num⟩⟩,
    amortize_sum_exact 2 12 0 1200 (by norm_num) ⟨120000, by norm_num⟩⟩

/-- Counterexample to claim C5 as stated: the lump sum `0.005` amortized
over one month with two rounding decimals produces the single installment
`round(0.005, 2) = 0.00`, so the installments sum to `0`, not `0.005`. -/
theorem amortize_sum_counterexample :
    ((scheduleLoop 2 1 0 ((1 : ℚ) / 200)).map (fun p => p.2)).sum ≠ (1 : ℚ) / 200 := by
  norm_num [scheduleLoop, roundTo, roundHalfEven]

/-- Claim C9: a transaction metadata key `amortization_months` overrides the
account's configured term length: the installment loop for that posting
runs for the metadata value, whatever the configured `months` is. -/
theorem amortization_months_meta_override (cfgMonths cfgMonths2 k : ℤ) (d : ℕ)
    (m : ℤ) (u : ℚ) :
    postingSchedule cfgMonths (some k) d m u = postingSchedule cfgMonths2 (some k) d m u ∧
      (postingSchedule cfgMonths (some k) d m u).length = k.toNat :=
  ⟨rfl, scheduleLoop_length d k.toNat m (-u)⟩

end Amortize

namespace CalcGains

/-- A posting locator: index of the transaction in the entry list, index of
the posting within the transaction (`calc_gains.py` line 17). -/
abbrev PostingID := ℕ × ℕ

/-- A trade in a security (`calc_gains.py` lines 20-29). -/
structure Trade where
  postingId : PostingID
  balance : ℚ
  date : ℤ
  units : ℚ
  price : ℚ
  consideration : ℚ
  realizing : Bool
deriving Repr, DecidableEq

/-- The average-cost costing method `get_realizing_cost_consideration`
(`calc_gains.py` lines 42-65):

    total_units = Decimal(0)
    total_cost = Decimal(0)
    cost_consideration = []
    for _, trade in enumerate(trades):
        if trade.realizing:
            cost_consideration.append(trade.units * (total_cost / total_units))
        total_cost += trade.price * trade.units
        total_units += trade.units
    return cost_consideration

The recursion carries `total_cost` and `total_units`; a realizing trade met
while `total_units` is zero raises `decimal.DivisionByZero` (or
`InvalidOperation`), an uncaught exception, modelled as `none`.  Note that
`total_cost` is accumulated at the trade's own recorded price for every
trade, realizing trades included. -/
def costAvgLoop : List Trade → ℚ → ℚ → Option (List ℚ)
  | [], _, _ => some []
  | t :: ts, total_cost, total_units =>
    if t.realizing then
      if total_units = 0 then none
      else
        match costAvgLoop ts (total_cost + t.price * t.units) (total_units + t.units) with
        | none => none
        | some rest => some (t.units * (total_cost / total_units) :: rest)
    else costAvgLoop ts (total_cost + t.price * t.units) (total_units + t.units)

def get_realizing_cost_consideration (trades : List Trade) : Option (List ℚ) :=
  costAvgLoop trades 0 0

/-- Modelled from the spec: the accumulation rule of spec section 4.3,
which claim C1 states, differing from the source only in the realizing
branch, where `total_cost` accumulates `quantity × avg_price` instead of
`quantity × recorded_price`:

  - If realizing: emit `quantity × (total_cost / total_units)` and
    accumulate `total_cost += quantity × avg_price`.
  - If non-realizing: accumulate `total_cost += quantity × recorded_price`.
  - Always: `total_units += quantity`. -/
def costAvgLoopSpec : List Trade → ℚ → ℚ → Option (List ℚ)
  | [], _, _ => some []
  | t :: ts, total_cost, total_units =>
    if t.realizing then
      if total_units = 0 then none
      else
        let avg := total_cost / total_units
        match costAvgLoopSpec ts (total_cost + avg * t.units) (total_units + t.units) with
        | none => none
        | some rest => some (t.units * avg :: rest)
    else costAvgLoopSpec ts (total_cost + t.price * t.units) (total_units + t.units)

def get_realizing_cost_consideration_spec (trades : List Trade) : Option (List ℚ) :=
  costAvgLoopSpec trades 0 0

/-- Claim C1, evaluation at the failing input.  History: buy 10 at 5, buy
10 at 9, sell 4 recorded at 10 (realizing), sell 4 recorded at 10
(realizing).  At the second disposal the claim (and spec section 4.3)
requires the pool to hold `total_cost = 140 - 4×7 = 112` over 16 units, an
average of 7, hence the cost consideration `-28`; the source instead
accumulated the first disposal at its recorded price 10, leaving
`total_cost = 100`, an average of 6.25, hence `-25`. -/
theorem cost_avg_accumulates_recorded_price :
    get_realizing_cost_consideration
        [⟨(0, 0), 0, 0, 10, 5, 50, false⟩, ⟨(1, 0), 10, 1, 10, 9, 90, false⟩,
          ⟨(2, 0), 20, 2, -4, 10, -40, true⟩, ⟨(3, 0), 16, 3, -4, 10, -40, true⟩] =
      some [-28, -25] ∧
    get_realizing_cost_consideration_spec
        [⟨(0, 0), 0, 0, 10, 5, 50, false⟩, ⟨(1, 0), 10, 1, 10, 9, 90, false⟩,
          ⟨(2, 0), 20, 2, -4, 10, -40, true⟩, ⟨(3, 0), 16, 3, -4, 10, -40, true⟩] =
      some [-28, -28] := by
  constructor <;> norm_num [get_realizing_cost_consideration, costAvgLoop,
    get_realizing_cost_consideration_spec, costAvgLoopSpec]

/-- The running unit total maintained by the costing method before the
trade at index `i` is the sum of the preceding trades' units. -/
def unitsBefore (trades : List Trade) (i : ℕ) : ℚ :=
  ((trades.take i).map (fun t => t.units)).sum

theorem costAvgLoop_err (trades : List Trade) (tc tu : ℚ)
    (h : ∃ i, ∃ hi : i < trades.length, (trades.get ⟨i, hi⟩).realizing = true ∧
      tu + ((trades.take i).map (fun t => t.units)).sum = 0) :
    costAvgLoop trades tc tu = none := by
  induction trades generalizing tc tu with
  | nil =>
    obtain ⟨i, hi, _⟩ := h
    simp at hi
  | cons t ts ih =>
    obtain ⟨i, hi, hreal, hzero⟩ := h
    cases i with
    | zero =>
      simp only [List.take_zero, List.map_nil, List.sum_nil, add_zero] at hzero
      simp only [List.get] at hreal
      simp [costAvgLoop, hreal, hzero]
    | succ j =>
      have hj : j < ts.length := by simpa using hi
      have hreal' : (ts.get ⟨j, hj⟩).realizing = true := by simpa using hreal
      have hzero' : (tu + t.units) + ((ts.take j).map (fun t => t.units)).sum = 0 := by
        simp only [List.take_succ_cons, List.map_cons, List.sum_cons] at hzero
        linarith
      have hrec := ih (tc + t.price * t.units) (tu + t.units) ⟨j, hj, hreal', hzero'⟩
      by_cases hr : t.realizing
      · by_cases htu : tu = 0
        · simp [costAvgLoop, hr, htu]
        · simp [costAvgLoop, hr, htu, hrec]
      · simp [costAvgLoop, hr, hrec]

/-- Claim C7: if some trade in the history is marked realizing while the
running unit total over the strictly preceding trades is zero, the
average-cost method fails hard (an uncaught division-by-zero, `none` in
this model), rather than skipping the trade. -/
theorem cost_avg_zero_history_hard_error (trades : List Trade)
    (h : ∃ i, ∃ hi : i < trades.length, (trades.get ⟨i, hi⟩).realizing = true ∧
      unitsBefore trades i = 0) :
    get_realizing_cost_consideration trades = none := by
  apply costAvgLoop_err
  obtain ⟨i, hi, hreal, hzero⟩ := h
  exact ⟨i, hi, hreal, by simpa [unitsBefore] using hzero⟩

/-- Witness for `cost_avg_zero_history_hard_error`: a single realizing
trade with no prior history makes the method fail. -/
theorem cost_avg_zero_history_hard_error_witness :
    (∃ i, ∃ hi : i < ([⟨(0, 0), 0, 0, -4, 10, -40, true⟩] : List Trade).length,
        (([⟨(0, 0), 0, 0, -4, 10, -40, true⟩] : List Trade).get ⟨i, hi⟩).realizing = true ∧
        unitsBefore [⟨(0, 0), 0, 0, -4, 10, -40, true⟩] i = 0) ∧
      get_realizing_cost_consideration [⟨(0, 0), 0, 0, -4, 10, -40, true⟩] = none := by
  have h : ∃ i, ∃ hi : i < ([⟨(0, 0), 0, 0, -4, 10, -40, true⟩] : List Trade).length,
      (([⟨(0, 0), 0, 0, -4, 10, -40, true⟩] : List Trade).get ⟨i, hi⟩).realizing = true ∧
      unitsBefore [⟨(0, 0), 0, 0, -4, 10, -40, true⟩] i = 0 :=
    ⟨0, by norm_num, by norm_num [List.get], by norm_num [unitsBefore]⟩
  exact ⟨h, cost_avg_zero_history_hard_error _ h⟩

/-- A beancount `Amount`: a number (possibly missing) and a currency. -/
structure GAmount where
  number : Option ℚ
  currency : String
deriving Repr, DecidableEq

/-- A beancount `Cost` or `CostSpec` attached to a posting: `number` stands
for `Cost.number` and `CostSpec.number_per` alike. -/
structure GCost where
  number : Option ℚ
  currency : String
  date : Option ℤ
deriving Repr, DecidableEq

/-- A posting: account, units, optional cost lot, optional price, and the
provenance note `calc_gains` writes into counter-posting metadata. -/
structure GPosting where
  account : String
  units : Option GAmount
  cost : Option GCost
  price : Option GAmount
  note : Option String
deriving Repr, DecidableEq

/-- A ledger entry: a transaction with a date and postings, or any other
directive (ignored by the gains pass). -/
inductive GEntry where
  | txn (date : ℤ) (postings : List GPosting)
  | other
deriving Repr, DecidableEq

/-- The per-posting validation failures of `calc_gains.py`: the four error
returns of `Account.add_posting` (lines 172-204) and the `missing cost?!?`
error of the collection loop (line 252). -/
inductive PostErr where
  | noCost
  | noUnits
  | inconsistentCostCurrency
  | costDateMismatch
  | noPrice
  | missingCost
deriving Repr, DecidableEq

/-- Insert-or-update on an association list, preserving the position of an
existing key (Python `dict` assignment). -/
def upsert {α : Type} (l : List (String × α)) (k : String) (v : α) : List (String × α) :=
  match l with
  | [] => [(k, v)]
  | (k', v') :: rest => if k' = k then (k', v) :: rest else (k', v') :: upsert rest k v

/-- Python `self.history.setdefault(key, []).append(t)`. -/
def appendHist (l : List (String × List Trade)) (k : String) (t : Trade) :
    List (String × List Trade) :=
  match l with
  | [] => [(k, [t])]
  | (k', v') :: rest => if k' = k then (k', v' ++ [t]) :: rest else (k', v') :: appendHist rest k t

/-- The mutable state of an `Account` (`calc_gains.py` lines 84-100):
`cost_currency`, `history` and `last_balance` are dicts keyed by the
asset (units) currency. -/
structure AccountSt where
  account : String
  cacct : String
  lotsAdjust : Bool
  costCurrency : List (String × String)
  history : List (String × List Trade)
  lastBalance : List (String × ℚ)
deriving Repr, DecidableEq

/-- Last part of `Account.add_posting` (`calc_gains.py` lines 191-221):
realizing classification from the running balance, price extraction, then
the trade is appended and the balance updated. -/
def addPostingTrade (st : AccountSt) (postingId : PostingID) (entryDate : ℤ)
    (cost : GCost) (assetCurrency : String) (n : ℚ) : AccountSt × Option PostErr :=
  let balance := (List.lookup assetCurrency st.lastBalance).getD 0
  let realizing : Bool :=
    if (0 < balance ∧ n < 0) ∨ (balance < 0 ∧ 0 < n) then true else false
  match cost.number with
  | none => (st, some .noPrice)
  | some price =>
    ({ st with
        history := appendHist st.history assetCurrency
          ⟨postingId, balance, entryDate, n, price, n * price, realizing⟩,
        lastBalance := upsert st.lastBalance assetCurrency (balance + n) }, none)

/-- Second half of `Account.add_posting` (`calc_gains.py` lines 188-221),
after the cost-currency table has been consulted: the cost-date check
(`if posting.cost.date and posting.cost.date != entry.date`), then the
trade extraction. -/
def addPostingRest (st : AccountSt) (postingId : PostingID) (entryDate : ℤ)
    (cost : GCost) (assetCurrency : String) (n : ℚ) : AccountSt × Option PostErr :=
  match cost.date with
  | some d0 =>
    if d0 ≠ entryDate then (st, some .costDateMismatch)
    else addPostingTrade st postingId entryDate cost assetCurrency n
  | none => addPostingTrade st postingId entryDate cost assetCurrency n

/-- `Account.add_posting` (`calc_gains.py` lines 161-221).  Note that when
the asset currency is seen for the first time, the `cost_currency` table
entry persists even if a later check fails, exactly as the Python dict
mutation does. -/
def addPosting (st : AccountSt) (postingId : PostingID) (entryDate : ℤ) (p : GPosting) :
    AccountSt × Option PostErr :=
  match p.cost with
  | none => (st, some .noCost)
  | some cost =>
    match p.units with
    | none => (st, some .noUnits)
    | some u =>
      match u.number with
      | none => (st, some .noUnits)
      | some n =>
        match List.lookup u.currency st.costCurrency with
        | some c0 =>
          if c0 ≠ cost.currency then (st, some .inconsistentCostCurrency)
          else addPostingRest st postingId entryDate cost u.currency n
        | none =>
          addPostingRest
            { st with costCurrency := upsert st.costCurrency u.currency cost.currency }
            postingId entryDate cost u.currency n

theorem lookup_appendHist (l : List (String × List Trade)) (k : String) (t : Trade) :
    List.lookup k (appendHist l k t) = some ((List.lookup k l).getD [] ++ [t]) := by
  induction l with
  | nil => simp [appendHist]
  | cons kv rest ih =>
    obtain ⟨k', v'⟩ := kv
    by_cases hk : k' = k
    · subst hk
      simp [appendHist]
    · have hkk : (k == k') = false := by
        simp [Ne.symm hk]
      simp [appendHist, hk, List.lookup, hkk, ih]

/-- Success of `addPostingTrade` appends exactly one trade to the history
of the asset currency, whose `balance` field is the prior running balance
and whose `realizing` field obeys the strict sign rule. -/
theorem addPostingTrade_spec (st0 : AccountSt) (pid : PostingID) (d : ℤ) (cost : GCost)
    (cur : String) (n : ℚ) (st' : AccountSt)
    (h : addPostingTrade st0 pid d cost cur n = (st', none)) :
    ∃ t, List.lookup cur st'.history = some ((List.lookup cur st0.history).getD [] ++ [t]) ∧
      t.balance = (List.lookup cur st0.lastBalance).getD 0 ∧ t.units = n ∧
      (t.realizing = true ↔ ((0 < t.balance ∧ t.units < 0) ∨ (t.balance < 0 ∧ 0 < t.units))) ∧
      (t.balance = 0 → t.realizing = false) := by
  unfold addPostingTrade at h
  split at h
  · exact absurd (congrArg Prod.snd h) (by simp)
  rename_i price _
  have hst' := (congrArg Prod.fst h).symm
  simp only [] at hst'
  refine ⟨⟨pid, (List.lookup cur st0.lastBalance).getD 0, d, n, price, n * price,
      if (0 < (List.lookup cur st0.lastBalance).getD 0 ∧ n < 0) ∨
          ((List.lookup cur st0.lastBalance).getD 0 < 0 ∧ 0 < n)
        then true else false⟩, ?_, rfl, rfl, ?_, ?_⟩
  · rw [hst']
    exact lookup_appendHist st0.history cur _
  · by_cases hcond : (0 < (List.lookup cur st0.lastBalance).getD 0 ∧ n < 0) ∨
        ((List.lookup cur st0.lastBalance).getD 0 < 0 ∧ 0 < n)
    · simp [hcond]
    · simp [hcond]
  · intro hb0
    have hb0q : (List.lookup cur st0.lastBalance).getD 0 = (0 : ℚ) := hb0
    show (if (0 < (List.lookup cur st0.lastBalance).getD 0 ∧ n < 0) ∨
        ((List.lookup cur st0.lastBalance).getD 0 < 0 ∧ 0 < n) then true else false) = false
    rw [hb0q]
    norm_num

theorem addPostingRest_spec (st0 : AccountSt) (pid : PostingID) (d : ℤ) (cost : GCost)
    (cur : String) (n : ℚ) (st' : AccountSt)
    (h : addPostingRest st0 pid d cost cur n = (st', none)) :
    ∃ t, List.lookup cur st'.history = some ((List.lookup cur st0.history).getD [] ++ [t]) ∧
      t.balance = (List.lookup cur st0.lastBalance).getD 0 ∧ t.units = n ∧
      (t.realizing = true ↔ ((0 < t.balance ∧ t.units < 0) ∨ (t.balance < 0 ∧ 0 < t.units))) ∧
      (t.balance = 0 → t.realizing = false) := by
  unfold addPostingRest at h
  split at h
  · split at h
    · exact absurd (congrArg Prod.snd h) (by simp)
    · exact addPostingTrade_spec st0 pid d cost cur n st' h
  · exact addPostingTrade_spec st0 pid d cost cur n st' h

/-- Claim C8: a trade successfully extracted by `Account.add_posting` is
classified realizing exactly when the prior balance and the traded
quantity have strictly opposite signs; a trade from an exactly-zero prior
balance is never realizing. -/
theorem realizing_sign_rule (st st' : AccountSt) (pid : PostingID) (d : ℤ)
    (p : GPosting) (h : addPosting st pid d p = (st', none)) :
    ∃ cur t, List.lookup cur st'.history = some ((List.lookup cur st.history).getD [] ++ [t]) ∧
      t.balance = (List.lookup cur st.lastBalance).getD 0 ∧
      (t.realizing = true ↔ ((0 < t.balance ∧ t.units < 0) ∨ (t.balance < 0 ∧ 0 < t.units))) ∧
      (t.balance = 0 → t.realizing = false) := by
  unfold addPosting at h
  split at h
  · exact absurd (congrArg Prod.snd h) (by simp)
  rename_i cost _
  split at h
  · exact absurd (congrArg Prod.snd h) (by simp)
  rename_i u _
  split at h
  · exact absurd (congrArg Prod.snd h) (by simp)
  rename_i n _
  split at h
  · split at h
    · exact absurd (congrArg Prod.snd h) (by simp)
    · obtain ⟨t, h1, h2, _, h4, h5⟩ := addPostingRest_spec st pid d cost u.currency n st' h
      exact ⟨u.currency, t, h1, h2, h4, h5⟩
  · obtain ⟨t, h1, h2, _, h4, h5⟩ := addPostingRest_spec
      { st with costCurrency := upsert st.costCurrency u.currency cost.currency }
      pid d cost u.currency n st' h
    exact ⟨u.currency, t, h1, h2, h4, h5⟩

/-- Witness for `realizing_sign_rule`: a first acquisition of 10 units at
cost 5 on a fresh account succeeds and is classified non-realizing. -/
theorem realizing_sign_rule_witness :
    addPosting ⟨"Assets:Test1", "Equity:Gains", false, [], [], []⟩ (0, 0) 0
        ⟨"Assets:Test1", some ⟨some 10, "X"⟩, some ⟨some 5, "GBP", none⟩, none, none⟩ =
      (⟨"Assets:Test1", "Equity:Gains", false, [("X", "GBP")],
        [("X", [⟨(0, 0), 0, 0, 10, 5, 50, false⟩])], [("X", 10)]⟩, none) ∧
    ∃ cur t,
      List.lookup cur
          (⟨"Assets:Test1", "Equity:Gains", false, [("X", "GBP")],
            [("X", [⟨(0, 0), 0, 0, 10, 5, 50, false⟩])], [("X", 10)]⟩ : AccountSt).history =
        some ((List.lookup cur
            (⟨"Assets:Test1", "Equity:Gains", false, [], [], []⟩ : AccountSt).history).getD []
          ++ [t]) ∧
      t.balance = (List.lookup cur
          (⟨"Assets:Test1", "Equity:Gains", false, [], [], []⟩ : AccountSt).lastBalance).getD 0 ∧
      (t.realizing = true ↔ ((0 < t.balance ∧ t.units < 0) ∨ (t.balance < 0 ∧ 0 < t.units))) ∧
      (t.balance = 0 → t.realizing = false) :=
  have h : addPosting ⟨"Assets:Test1", "Equity:Gains", false, [], [], []⟩ (0, 0) 0
      ⟨"Assets:Test1", some ⟨some 10, "X"⟩, some ⟨some 5, "GBP", none⟩, none, none⟩ =
      (⟨"Assets:Test1", "Equity:Gains", false, [("X", "GBP")],
        [("X", [⟨(0, 0), 0, 0, 10, 5, 50, false⟩])], [("X", 10)]⟩, none) := by
    norm_num [addPosting, addPostingRest, addPostingTrade, upsert, appendHist, List.lookup]
  ⟨h, realizing_sign_rule _ _ _ _ _ h⟩

/-- A beancount inventory key: the units currency together with the full
cost object, as in `Inventory`, which is keyed by `(units.currency, cost)`. -/
abbrev InvKey := String × GCost

/-- Beancount `Inventory.add_position`: merge into an existing position
with the same key, deleting it when the quantity reaches zero; a zero
quantity is never stored. -/
def invAdd (inv : List (InvKey × ℚ)) (k : InvKey) (n : ℚ) : List (InvKey × ℚ) :=
  match inv with
  | [] => if n = 0 then [] else [(k, n)]
  | (k', v') :: rest =>
    if k' = k then
      if v' + n = 0 then rest else (k', v' + n) :: rest
    else (k', v') :: invAdd rest k n

/-- The liquidation loop of `Account.process` (`calc_gains.py` lines
122-131): every nonzero position is negated with a posting on the account,
and its cost and quantity accumulate into `liquidated_cost` and
`liquidated_balance`.  A position whose cost has no number would make the
Python multiplication fail, modelled as `none` (unreachable: positions are
created from rewritten postings, which always carry a cost number). -/
def liquidate (account : String) : List (InvKey × ℚ) → Option (List GPosting × ℚ × ℚ)
  | [] => some ([], 0, 0)
  | ((cur, cost), nUnits) :: rest =>
    if nUnits = 0 then liquidate account rest
    else
      match cost.number with
      | none => none
      | some cn =>
        match liquidate account rest with
        | none => none
        | some (ps, lc, lb) =>
          some (⟨account, some ⟨some (-nUnits), cur⟩, some cost, none, none⟩ :: ps,
            cn * nUnits + lc, nUnits + lb)

/-- The running state of the `Account.process` loop over one trade
history: the entry list being mutated, the inventory, and the queue of
cost considerations computed by the costing method, popped one per
realizing trade. -/
structure StepState where
  entries : List GEntry
  inventory : List (InvKey × ℚ)
  adjs : List ℚ
deriving Repr, DecidableEq

/-- The body of the `for trade in trades` loop of `Account.process`
(`calc_gains.py` lines 114-159), for one trade.  Returns the new state
together with the counter-amount `camt` and the new cost consideration
`new_cost_consideration` the body computed.  `none` models the uncaught
Python exceptions: an out-of-range index, popping an empty adjustment
list, rewriting a posting without units or cost, or the `Decimal` division
by a zero `trade.units`. -/
def processTradeStep (account cacct : String) (lotsAdjust : Bool) (st : StepState)
    (trade : Trade) : Option (StepState × ℚ × ℚ) :=
  match st.entries.get? trade.postingId.1 with
  | some (.txn tdate postings0) =>
    match (if trade.realizing then st.adjs.head? else some (trade.price * trade.units)) with
    | none => none
    | some ncc =>
      let adjs1 := if trade.realizing then st.adjs.tail else st.adjs
      match (if lotsAdjust then liquidate account st.inventory else some ([], 0, 0)) with
      | none => none
      | some (liqPostings, liqCost, liqBal) =>
        let inv1 := if lotsAdjust then [] else st.inventory
        let postings1 := postings0 ++ liqPostings
        match postings1.get? trade.postingId.2 with
        | none => none
        | some oldPost =>
          match oldPost.units, oldPost.cost with
          | some oldUnits, some oldCost =>
            if trade.units = 0 then none
            else
              let newCost : GCost :=
                { oldCost with number := some (ncc / trade.units), date := some tdate }
              let newPost : GPosting :=
                { oldPost with
                    units := some { oldUnits with number := some (liqBal + trade.units) },
                    cost := some newCost }
              let postings2 := postings1.set trade.postingId.2 newPost
              let inv2 := invAdd inv1 (oldUnits.currency, newCost) (liqBal + trade.units)
              let camt := trade.price * trade.units
                - (liqBal + trade.units) * (ncc / trade.units) + liqCost
              let postings3 :=
                if camt ≠ 0 then
                  postings2 ++ [⟨cacct, some ⟨some camt, oldCost.currency⟩, none, none,
                    some (if lotsAdjust then "full_adjustment" else "part_adjust")⟩]
                else postings2
              some (⟨st.entries.set trade.postingId.1 (.txn tdate postings3), inv2, adjs1⟩,
                camt, ncc)
          | _, _ => none
  | _ => none

/-- The `for trade in trades` loop of `Account.process`, also collecting
the `(camt, new_cost_consideration)` pair computed at each step. -/
def processTradesLoop (account cacct : String) (lotsAdjust : Bool) :
    StepState → List Trade → Option (StepState × List (ℚ × ℚ))
  | st, [] => some (st, [])
  | st, t :: ts =>
    match processTradeStep account cacct lotsAdjust st t with
    | none => none
    | some (st', camt, ncc) =>
      match processTradesLoop account cacct lotsAdjust st' ts with
      | none => none
      | some (stf, infos) => some (stf, (camt, ncc) :: infos)

/-- One iteration of the `for trades in self.history.values()` loop of
`Account.process` (`calc_gains.py` lines 109-159): a fresh inventory, the
costing method applied to the whole history, then the per-trade loop. -/
def processHistory (account cacct : String) (lotsAdjust : Bool) (entries : List GEntry)
    (trades : List Trade) : Option (List GEntry × List (ℚ × ℚ)) :=
  match get_realizing_cost_consideration trades with
  | none => none
  | some adjs =>
    match processTradesLoop account cacct lotsAdjust ⟨entries, [], adjs⟩ trades with
    | none => none
    | some (stf, infos) => some (stf.entries, infos)

/-- `Account.process` over all per-currency histories. -/
def processAccountGo (account cacct : String) (lotsAdjust : Bool) :
    List (String × List Trade) → List GEntry → Option (List GEntry)
  | [], entries => some entries
  | (_, trades) :: rest, entries =>
    match processHistory account cacct lotsAdjust entries trades with
    | none => none
    | some (entries', _) => processAccountGo account cacct lotsAdjust rest entries'

def processAccount (a : AccountSt) (entries : List GEntry) : Option (List GEntry) :=
  processAccountGo a.account a.cacct a.lotsAdjust a.history entries

/-- One posting of the collection loop of `calc_gains` (`calc_gains.py`
lines 246-254).  Returns the updated account table, the error the source
appends to its `errors` list (the `missing cost?!?` case), and the error
message returned by `add_posting`, which the source computes and then
discards (line 254 ignores the return value). -/
def collectPost (accounts : List (String × AccountSt)) (transId postId : ℕ)
    (entryDate : ℤ) (p : GPosting) :
    List (String × AccountSt) × Option PostErr × Option PostErr :=
  match List.lookup p.account accounts with
  | none => (accounts, none, none)
  | some acct =>
    if p.cost = none ∧ p.price = none then (accounts, none, none)
    else if p.cost = none then (accounts, some .missingCost, none)
    else
      let r := addPosting acct (transId, postId) entryDate p
      (upsert accounts p.account r.1, none, r.2)

def collectPostings (accounts : List (String × AccountSt)) (transId : ℕ) (postId : ℕ)
    (entryDate : ℤ) :
    List GPosting → List (String × AccountSt) × List PostErr × List PostErr
  | [] => (accounts, [], [])
  | p :: ps =>
    let r1 := collectPost accounts transId postId entryDate p
    let r2 := collectPostings r1.1 transId (postId + 1) entryDate ps
    (r2.1, r1.2.1.toList ++ r2.2.1, r1.2.2.toList ++ r2.2.2)

def collectEntries (accounts : List (String × AccountSt)) (transId : ℕ) :
    List GEntry → List (String × AccountSt) × List PostErr × List PostErr
  | [] => (accounts, [], [])
  | .txn date ps :: rest =>
    let r1 := collectPostings accounts transId 0 date ps
    let r2 := collectEntries r1.1 (transId + 1) rest
    (r2.1, r1.2.1 ++ r2.2.1, r1.2.2 ++ r2.2.2)
  | .other :: rest => collectEntries accounts (transId + 1) rest

/-- The collection phase of `calc_gains` (`calc_gains.py` lines 243-254):
walk every transaction's postings through the tracked accounts, gathering
the states, the `errors` list the source builds, and the `add_posting`
error returns the source drops. -/
def calcGainsCollect (accounts : List (String × AccountSt)) (entries : List GEntry) :
    List (String × AccountSt) × List PostErr × List PostErr :=
  collectEntries accounts 0 entries

def processAllAccounts : List (String × AccountSt) → List GEntry → Option (List GEntry)
  | [], entries => some entries
  | (_, a) :: rest, entries =>
    match processAccount a entries with
    | none => none
    | some entries' => processAllAccounts rest entries'

/-- `calc_gains` (`calc_gains.py` lines 224-263), after configuration
parsing: collect the trading histories, apply every account's adjustments,
and return the new entries together with the error list — which the
source returns as the literal empty list (line 263), not the `errors`
variable it accumulated. -/
def calcGains (accounts : List (String × AccountSt)) (entries : List GEntry) :
    Option (List GEntry × List PostErr) :=
  let collected := calcGainsCollect accounts entries
  match processAllAccounts collected.1 entries with
  | none => none
  | some entries' => some (entries', [])

/-- The cost-consideration weight a posting contributes to its
transaction's balance: units times cost when a cost is attached, the bare
units amount otherwise. -/
def postingWeight (p : GPosting) : ℚ :=
  (match p.units with
    | some u => u.number.getD 0
    | none => 0) *
  (match p.cost with
    | some c => c.number.getD 1
    | none => 1)

/-- The total cost-consideration weight of the transaction at index `i`. -/
def txnWeightAt (entries : List GEntry) (i : ℕ) : ℚ :=
  match entries.get? i with
  | some (.txn _ ps) => (ps.map postingWeight).sum
  | _ => 0

theorem get?_set_self {α : Type} (l : List α) (i : ℕ) (x a : α) (h : l.get? i = some a) :
    (l.set i x).get? i = some x := by
  induction l generalizing i with
  | nil => simp [List.get?] at h
  | cons b rest ih =>
    cases i with
    | zero => simp [List.set]
    | succ j => simpa [List.set, List.get?] using ih j (by simpa [List.get?] using h)

theorem get?_append_left {α : Type} (l₁ l₂ : List α) (i : ℕ) (a : α)
    (h : l₁.get? i = some a) : (l₁ ++ l₂).get? i = some a := by
  induction l₁ generalizing i with
  | nil => simp [List.get?] at h
  | cons b rest ih =>
    cases i with
    | zero => simpa [List.get?] using h
    | succ j => simpa [List.get?] using ih j (by simpa [List.get?] using h)

theorem wsum_set (l : List GPosting) (i : ℕ) (x p : GPosting) (h : l.get? i = some p) :
    ((l.set i x).map postingWeight).sum
      = (l.map postingWeight).sum - postingWeight p + postingWeight x := by
  induction l generalizing i with
  | nil => simp [List.get?] at h
  | cons b rest ih =>
    cases i with
    | zero =>
      have hb : b = p := by simpa [List.get?] using h
      subst hb
      simp [List.set]
      ring
    | succ j =>
      have h' : rest.get? j = some p := by simpa [List.get?] using h
      simp only [List.set, List.map_cons, List.sum_cons, ih j h']
      ring

theorem liquidate_wsum (account : String) (inv : List (InvKey × ℚ)) (ps : List GPosting)
    (lc lb : ℚ) (h : liquidate account inv = some (ps, lc, lb)) :
    (ps.map postingWeight).sum = -lc := by
  induction inv generalizing ps lc lb with
  | nil =>
    simp only [liquidate, Option.some.injEq, Prod.mk.injEq] at h
    obtain ⟨rfl, rfl, rfl⟩ := h
    simp
  | cons kv rest ih =>
    obtain ⟨⟨cur, cost⟩, n⟩ := kv
    unfold liquidate at h
    split at h
    · exact ih ps lc lb h
    · split at h
      · simp at h
      · rename_i cn hcn
        split at h
        · simp at h
        · rename_i ps1 lc1 lb1 heqr
          simp only [Option.some.injEq, Prod.mk.injEq] at h
          obtain ⟨rfl, rfl, rfl⟩ := h
          have hrec := ih ps1 lc1 lb1 heqr
          simp only [List.map_cons, List.sum_cons, hrec, postingWeight, hcn]
          simp [Option.getD]
          ring

theorem liqOpt_wsum (la : Bool) (account : String) (inv : List (InvKey × ℚ))
    (ps : List GPosting) (lc lb : ℚ)
    (h : (if la then liquidate account inv else some ([], 0, 0)) = some (ps, lc, lb)) :
    (ps.map postingWeight).sum = -lc := by
  cases la with
  | true => exact liquidate_wsum account inv ps lc lb (by simpa using h)
  | false =>
    simp only [Bool.false_eq_true, if_false, Option.some.injEq, Prod.mk.injEq] at h
    obtain ⟨rfl, rfl, rfl⟩ := h
    simp

/-- Claim C4: one iteration of the adjustment loop (in both the
lot-adjusting and non-lot-adjusting variants) leaves the total
cost-consideration weight of the transaction it touches unchanged: the
rewritten posting, the liquidation postings and the counter-posting sum
to exactly zero change. -/
theorem process_step_preserves_txn_weight (account cacct : String) (lotsAdjust : Bool)
    (st : StepState) (trade : Trade) (st' : StepState) (camt ncc : ℚ)
    (tdate : ℤ) (ps0 : List GPosting) (oldPost : GPosting) (u : GAmount) (c : GCost)
    (h : processTradeStep account cacct lotsAdjust st trade = some (st', camt, ncc))
    (htxn : st.entries.get? trade.postingId.1 = some (.txn tdate ps0))
    (hpost : ps0.get? trade.postingId.2 = some oldPost)
    (hu : oldPost.units = some u) (hun : u.number = some trade.units)
    (hc : oldPost.cost = some c) (hcn : c.number = some trade.price) :
    txnWeightAt st'.entries trade.postingId.1 = txnWeightAt st.entries trade.postingId.1 := by
  unfold processTradeStep at h
  rw [htxn] at h
  dsimp only at h
  cases hncc0 : (if trade.realizing = true then st.adjs.head?
      else some (trade.price * trade.units)) with
  | none =>
    rw [hncc0] at h
    simp at h
  | some ncc0 =>
  rw [hncc0] at h
  dsimp only at h
  cases hliq : (if lotsAdjust = true then liquidate account st.inventory
      else some (([], 0, 0) : List GPosting × ℚ × ℚ)) with
  | none =>
    rw [hliq] at h
    simp at h
  | some liqTriple =>
  obtain ⟨liqPostings, liqCost, liqBal⟩ := liqTriple
  rw [hliq] at h
  dsimp only at h
  have hpost1 : (ps0 ++ liqPostings).get? trade.postingId.2 = some oldPost :=
    get?_append_left ps0 liqPostings trade.postingId.2 oldPost hpost
  rw [hpost1] at h
  dsimp only at h
  rw [hu, hc] at h
  dsimp only at h
  by_cases hz : trade.units = 0
  · rw [if_pos hz] at h
    simp at h
  rw [if_neg hz] at h
  simp only [Option.some.injEq, Prod.mk.injEq] at h
  obtain ⟨hst, hcamt, hncc⟩ := h
  have hliqw : (liqPostings.map postingWeight).sum = -liqCost :=
    liqOpt_wsum lotsAdjust account st.inventory liqPostings liqCost liqBal hliq
  have hwold : postingWeight oldPost = trade.units * trade.price := by
    simp [postingWeight, hu, hun, hc, hcn]
  rw [← hst]
  unfold txnWeightAt
  dsimp only
  rw [get?_set_self st.entries trade.postingId.1 _ _ htxn, htxn]
  dsimp only
  have hwnew : postingWeight
      { oldPost with
          units := some { u with number := some (liqBal + trade.units) },
          cost := some { c with number := some (ncc0 / trade.units), date := some tdate } }
      = (liqBal + trade.units) * (ncc0 / trade.units) := by
    simp [postingWeight]
  by_cases hcamt0 : trade.price * trade.units
      - (liqBal + trade.units) * (ncc0 / trade.units) + liqCost = 0
  · rw [if_neg (by simpa using hcamt0)]
    rw [wsum_set (ps0 ++ liqPostings) trade.postingId.2 _ oldPost hpost1]
    rw [List.map_append, List.sum_append, hliqw, hwold, hwnew]
    linarith
  · rw [if_pos (by simpa using hcamt0)]
    rw [List.map_append, List.sum_append]
    rw [wsum_set (ps0 ++ liqPostings) trade.postingId.2 _ oldPost hpost1]
    rw [List.map_append, List.sum_append, hliqw, hwold, hwnew]
    have hwcounter : postingWeight
        ⟨cacct, some ⟨some (trade.price * trade.units
          - (liqBal + trade.units) * (ncc0 / trade.units) + liqCost), c.currency⟩, none, none,
          some (if lotsAdjust then "full_adjustment" else "part_adjust")⟩
        = trade.price * trade.units
          - (liqBal + trade.units) * (ncc0 / trade.units) + liqCost := by
      simp [postingWeight]
    simp only [List.map_cons, List.map_nil, List.sum_cons, List.sum_nil, hwcounter]
    ring

/-- Witness for `process_step_preserves_txn_weight`: the lot-adjusting
variant liquidates a 10-unit lot at cost 5, rewrites a 4-unit disposal
recorded at 10 to the average cost 7, and emits a counter-posting of -32;
the transaction weight -40 is unchanged. -/
theorem process_step_preserves_txn_weight_witness :
    processTradeStep "Assets:Test1" "Equity:Gains" true
        ⟨[.txn 2 [⟨"Assets:Test1", some ⟨some (-4), "X"⟩, some ⟨some 10, "GBP", none⟩,
            none, none⟩]],
          [(("X", ⟨some 5, "GBP", some 0⟩), 10)], [-28]⟩
        ⟨(0, 0), 20, 2, -4, 10, -40, true⟩ =
      some (⟨[.txn 2
          [⟨"Assets:Test1", some ⟨some 6, "X"⟩, some ⟨some 7, "GBP", some 2⟩, none, none⟩,
            ⟨"Assets:Test1", some ⟨some (-10), "X"⟩, some ⟨some 5, "GBP", some 0⟩, none, none⟩,
            ⟨"Equity:Gains", some ⟨some (-32), "GBP"⟩, none, none, some "full_adjustment"⟩]],
        [(("X", ⟨some 7, "GBP", some 2⟩), 6)], []⟩, -32, -28) ∧
    txnWeightAt [GEntry.txn 2
        [⟨"Assets:Test1", some ⟨some 6, "X"⟩, some ⟨some 7, "GBP", some 2⟩, none, none⟩,
          ⟨"Assets:Test1", some ⟨some (-10), "X"⟩, some ⟨some 5, "GBP", some 0⟩, none, none⟩,
          ⟨"Equity:Gains", some ⟨some (-32), "GBP"⟩, none, none, some "full_adjustment"⟩]] 0
      = txnWeightAt [GEntry.txn 2 [⟨"Assets:Test1", some ⟨some (-4), "X"⟩,
          some ⟨some 10, "GBP", none⟩, none, none⟩]] 0 :=
  have h : processTradeStep "Assets:Test1" "Equity:Gains" true
      ⟨[.txn 2 [⟨"Assets:Test1", some ⟨some (-4), "X"⟩, some ⟨some 10, "GBP", none⟩,
          none, none⟩]],
        [(("X", ⟨some 5, "GBP", some 0⟩), 10)], [-28]⟩
      ⟨(0, 0), 20, 2, -4, 10, -40, true⟩ =
      some (⟨[.txn 2
          [⟨"Assets:Test1", some ⟨some 6, "X"⟩, some ⟨some 7, "GBP", some 2⟩, none, none⟩,
            ⟨"Assets:Test1", some ⟨some (-10), "X"⟩, some ⟨some 5, "GBP", some 0⟩, none, none⟩,
            ⟨"Equity:Gains", some ⟨some (-32), "GBP"⟩, none, none, some "full_adjustment"⟩]],
        [(("X", ⟨some 7, "GBP", some 2⟩), 6)], []⟩, -32, -28) := by
    norm_num [processTradeStep, liquidate, invAdd, List.get?]
  ⟨h, process_step_preserves_txn_weight "Assets:Test1" "Equity:Gains" true _ _ _ _ _ 2 _ _
    ⟨some (-4), "X"⟩ ⟨some 10, "GBP", none⟩ h rfl rfl rfl rfl rfl rfl⟩

/-- Claim C10: a successful adjustment step rewrites the referenced
posting's cost for every tracked trade, realizing or not: the cost number
becomes `new_cost_consideration / trade.units` and the cost date becomes
the transaction's date; for a non-realizing trade the new cost number
equals the trade's recorded price. -/
theorem process_step_rewrites_cost (account cacct : String) (lotsAdjust : Bool)
    (st : StepState) (trade : Trade) (st' : StepState) (camt ncc : ℚ)
    (tdate : ℤ) (ps0 : List GPosting) (oldPost : GPosting) (u : GAmount) (c : GCost)
    (h : processTradeStep account cacct lotsAdjust st trade = some (st', camt, ncc))
    (htxn : st.entries.get? trade.postingId.1 = some (.txn tdate ps0))
    (hpost : ps0.get? trade.postingId.2 = some oldPost)
    (hu : oldPost.units = some u) (hc : oldPost.cost = some c) :
    trade.units ≠ 0 ∧
    ∃ ps', st'.entries.get? trade.postingId.1 = some (.txn tdate ps') ∧
      ∃ p' c', ps'.get? trade.postingId.2 = some p' ∧ p'.cost = some c' ∧
        c'.number = some (ncc / trade.units) ∧ c'.date = some tdate ∧
        (trade.realizing = false →
          ncc = trade.price * trade.units ∧ ncc / trade.units = trade.price) := by
  unfold processTradeStep at h
  rw [htxn] at h
  dsimp only at h
  cases hncc0 : (if trade.realizing = true then st.adjs.head?
      else some (trade.price * trade.units)) with
  | none =>
    rw [hncc0] at h
    simp at h
  | some ncc0 =>
  rw [hncc0] at h
  dsimp only at h
  cases hliq : (if lotsAdjust = true then liquidate account st.inventory
      else some (([], 0, 0) : List GPosting × ℚ × ℚ)) with
  | none =>
    rw [hliq] at h
    simp at h
  | some liqTriple =>
  obtain ⟨liqPostings, liqCost, liqBal⟩ := liqTriple
  rw [hliq] at h
  dsimp only at h
  have hpost1 : (ps0 ++ liqPostings).get? trade.postingId.2 = some oldPost :=
    get?_append_left ps0 liqPostings trade.postingId.2 oldPost hpost
  rw [hpost1] at h
  dsimp only at h
  rw [hu, hc] at h
  dsimp only at h
  by_cases hz : trade.units = 0
  · rw [if_pos hz] at h
    simp at h
  rw [if_neg hz] at h
  simp only [Option.some.injEq, Prod.mk.injEq] at h
  obtain ⟨hst, hcamt, hncc⟩ := h
  subst hncc
  refine ⟨hz, ?_⟩
  rw [← hst]
  refine ⟨_, get?_set_self st.entries trade.postingId.1 _ _ htxn, ?_⟩
  have hp2 : ((ps0 ++ liqPostings).set trade.postingId.2
      { oldPost with
          units := some { u with number := some (liqBal + trade.units) },
          cost := some { c with number := some (ncc0 / trade.units), date := some tdate } }).get?
        trade.postingId.2
      = some { oldPost with
          units := some { u with number := some (liqBal + trade.units) },
          cost := some { c with number := some (ncc0 / trade.units), date := some tdate } } :=
    get?_set_self (ps0 ++ liqPostings) trade.postingId.2 _ oldPost hpost1
  refine ⟨{ oldPost with
      units := some { u with number := some (liqBal + trade.units) },
      cost := some { c with number := some (ncc0 / trade.units), date := some tdate } },
    { c with number := some (ncc0 / trade.units), date := some tdate }, ?_, rfl, rfl, rfl, ?_⟩
  · by_cases hcamt0 : trade.price * trade.units
        - (liqBal + trade.units) * (ncc0 / trade.units) + liqCost = 0
    · rw [if_neg (by simpa using hcamt0)]
      exact hp2
    · rw [if_pos (by simpa using hcamt0)]
      exact get?_append_left _ _ _ _ hp2
  · intro hrf
    rw [hrf] at hncc0
    simp only [Bool.false_eq_true, if_false, Option.some.injEq] at hncc0
    constructor
    · exact hncc0.symm
    · rw [← hncc0, mul_div_cancel_right₀ trade.price hz]

/-- Witness for `process_step_rewrites_cost`: a non-realizing acquisition
of 10 units recorded at price 5 has its posting rewritten to cost
`50 / 10 = 5` (its recorded price) with the transaction's date. -/
theorem process_step_rewrites_cost_witness :
    processTradeStep "Assets:Test1" "Equity:Gains" false
        ⟨[.txn 5 [⟨"Assets:Test1", some ⟨some 10, "X"⟩, some ⟨some 5, "GBP", none⟩,
            none, none⟩]], [], []⟩
        ⟨(0, 0), 0, 5, 10, 5, 50, false⟩ =
      some (⟨[.txn 5 [⟨"Assets:Test1", some ⟨some 10, "X"⟩, some ⟨some 5, "GBP", some 5⟩,
          none, none⟩]],
        [(("X", ⟨some 5, "GBP", some 5⟩), 10)], []⟩, 0, 50) ∧
    ((10 : ℚ) ≠ 0 ∧
      ∃ ps', ((⟨[.txn 5 [⟨"Assets:Test1", some ⟨some 10, "X"⟩,
            some ⟨some 5, "GBP", some 5⟩, none, none⟩]],
          [(("X", ⟨some 5, "GBP", some 5⟩), 10)], []⟩ : StepState)).entries.get? 0
          = some (.txn 5 ps') ∧
        ∃ p' c', ps'.get? 0 = some p' ∧ p'.cost = some c' ∧
          c'.number = some ((50 : ℚ) / 10) ∧ c'.date = some 5 ∧
          (false = false → (50 : ℚ) = 5 * 10 ∧ (50 : ℚ) / 10 = 5)) :=
  have h : processTradeStep "Assets:Test1" "Equity:Gains" false
      ⟨[.txn 5 [⟨"Assets:Test1", some ⟨some 10, "X"⟩, some ⟨some 5, "GBP", none⟩,
          none, none⟩]], [], []⟩
      ⟨(0, 0), 0, 5, 10, 5, 50, false⟩ =
      some (⟨[.txn 5 [⟨"Assets:Test1", some ⟨some 10, "X"⟩, some ⟨some 5, "GBP", some 5⟩,
          none, none⟩]],
        [(("X", ⟨some 5, "GBP", some 5⟩), 10)], []⟩, 0, 50) := by
    norm_num [processTradeStep, invAdd, List.get?]
  ⟨h, process_step_rewrites_cost "Assets:Test1" "Equity:Gains" false _ _ _ _ _ 5 _ _
    ⟨some 10, "X"⟩ ⟨some 5, "GBP", none⟩ h rfl rfl rfl rfl⟩

/-- In the non-lot-adjusting variant, each step's counter-amount is the
recorded consideration minus the emitted cost consideration. -/
theorem process_step_camt_noLots (account cacct : String) (st : StepState) (trade : Trade)
    (st' : StepState) (camt ncc : ℚ)
    (h : processTradeStep account cacct false st trade = some (st', camt, ncc)) :
    camt = trade.price * trade.units - ncc := by
  unfold processTradeStep at h
  cases htxn : st.entries.get? trade.postingId.1 with
  | none =>
    rw [htxn] at h
    simp at h
  | some e =>
  cases e with
  | other =>
    rw [htxn] at h
    simp at h
  | txn tdate ps0 =>
  rw [htxn] at h
  dsimp only at h
  cases hncc0 : (if trade.realizing = true then st.adjs.head?
      else some (trade.price * trade.units)) with
  | none =>
    rw [hncc0] at h
    simp at h
  | some ncc0 =>
  rw [hncc0] at h
  dsimp only at h
  have hliqval : (if (false : Bool) = true then liquidate account st.inventory
      else some (([], 0, 0) : List GPosting × ℚ × ℚ)) = some ([], 0, 0) := by
    norm_num
  rw [hliqval] at h
  dsimp only at h
  cases hpp : (ps0 ++ []).get? trade.postingId.2 with
  | none =>
    rw [hpp] at h
    simp at h
  | some oldPost =>
  rw [hpp] at h
  dsimp only at h
  cases hu : oldPost.units with
  | none =>
    rw [hu] at h
    simp at h
  | some u =>
  cases hc : oldPost.cost with
  | none =>
    rw [hu, hc] at h
    simp at h
  | some c =>
  rw [hu, hc] at h
  dsimp only at h
  by_cases hz : trade.units = 0
  · rw [if_pos hz] at h
    simp at h
  rw [if_neg hz] at h
  simp only [Option.some.injEq, Prod.mk.injEq] at h
  obtain ⟨_, hcamt, hncc⟩ := h
  rw [← hcamt, ← hncc]
  have : (0 + trade.units) * (ncc0 / trade.units) = ncc0 := by
    rw [zero_add, mul_comm, div_mul_cancel₀ ncc0 hz]
  rw [this]
  ring

/-- Summed over the whole per-trade loop in the non-lot-adjusting variant:
the counter-amounts plus the emitted cost considerations equal the
recorded considerations. -/
theorem processTradesLoop_conservation (account cacct : String) (st : StepState)
    (trades : List Trade) (stf : StepState) (infos : List (ℚ × ℚ))
    (h : processTradesLoop account cacct false st trades = some (stf, infos)) :
    (infos.map (fun p => p.1)).sum + (infos.map (fun p => p.2)).sum
      = (trades.map (fun t => t.price * t.units)).sum := by
  induction trades generalizing st stf infos with
  | nil =>
    unfold processTradesLoop at h
    simp only [Option.some.injEq, Prod.mk.injEq] at h
    obtain ⟨rfl, rfl⟩ := h
    simp
  | cons t ts ih =>
    unfold processTradesLoop at h
    cases hstep : processTradeStep account cacct false st t with
    | none =>
      rw [hstep] at h
      simp at h
    | some r =>
    obtain ⟨st1, camt1, ncc1⟩ := r
    rw [hstep] at h
    dsimp only at h
    cases hrest : processTradesLoop account cacct false st1 ts with
    | none =>
      rw [hrest] at h
      simp at h
    | some r2 =>
    obtain ⟨stf2, infos2⟩ := r2
    rw [hrest] at h
    dsimp only at h
    simp only [Option.some.injEq, Prod.mk.injEq] at h
    obtain ⟨rfl, rfl⟩ := h
    have hcamt := process_step_camt_noLots account cacct st t st1 camt1 ncc1 hstep
    have hrec := ih st1 stf2 infos2 hrest
    simp only [List.map_cons, List.sum_cons]
    linarith

/-- Claim C3 (amended): for any trade history processed by the
average-cost method in the non-lot-adjusting variant, the sum of all
counter-amounts plus the sum of the emitted (new) cost considerations of
all trades equals the sum of recorded considerations
(`quantity × recorded price`) of all trades. -/
theorem cost_avg_value_conservation (account cacct : String) (entries : List GEntry)
    (trades : List Trade) (es : List GEntry) (infos : List (ℚ × ℚ))
    (h : processHistory account cacct false entries trades = some (es, infos)) :
    (infos.map (fun p => p.1)).sum + (infos.map (fun p => p.2)).sum
      = (trades.map (fun t => t.price * t.units)).sum := by
  unfold processHistory at h
  cases hm : get_realizing_cost_consideration trades with
  | none =>
    rw [hm] at h
    simp at h
  | some adjs =>
  rw [hm] at h
  dsimp only at h
  cases hl : processTradesLoop account cacct false ⟨entries, [], adjs⟩ trades with
  | none =>
    rw [hl] at h
    simp at h
  | some r =>
  obtain ⟨stf, infos2⟩ := r
  rw [hl] at h
  dsimp only at h
  simp only [Option.some.injEq, Prod.mk.injEq] at h
  obtain ⟨-, rfl⟩ := h
  exact processTradesLoop_conservation account cacct _ trades stf infos2 hl

/-- Witness for `cost_avg_value_conservation`: a buy of 2 at 1 followed by
a realizing sale of 1 recorded at 1; counter-amounts 0 and 0, emitted
considerations 2 and -1, recorded considerations 2 and -1. -/
theorem cost_avg_value_conservation_witness :
    processHistory "Assets:Test1" "Equity:Gains" false
        [.txn 0 [⟨"Assets:Test1", some ⟨some 2, "X"⟩, some ⟨some 1, "GBP", none⟩, none, none⟩],
          .txn 1 [⟨"Assets:Test1", some ⟨some (-1), "X"⟩, some ⟨some 1, "GBP", none⟩,
            none, none⟩]]
        [⟨(0, 0), 0, 0, 2, 1, 2, false⟩, ⟨(1, 0), 2, 1, -1, 1, -1, true⟩]
      = some ([.txn 0 [⟨"Assets:Test1", some ⟨some 2, "X"⟩, some ⟨some 1, "GBP", some 0⟩,
            none, none⟩],
          .txn 1 [⟨"Assets:Test1", some ⟨some (-1), "X"⟩, some ⟨some 1, "GBP", some 1⟩,
            none, none⟩]], [(0, 2), (0, -1)]) ∧
    (([((0 : ℚ), (2 : ℚ)), (0, -1)] : List (ℚ × ℚ)).map (fun p => p.1)).sum
        + (([((0 : ℚ), (2 : ℚ)), (0, -1)] : List (ℚ × ℚ)).map (fun p => p.2)).sum
      = (([⟨(0, 0), 0, 0, 2, 1, 2, false⟩, ⟨(1, 0), 2, 1, -1, 1, -1, true⟩] : List Trade).map
          (fun t => t.price * t.units)).sum :=
  have h : processHistory "Assets:Test1" "Equity:Gains" false
      [.txn 0 [⟨"Assets:Test1", some ⟨some 2, "X"⟩, some ⟨some 1, "GBP", none⟩, none, none⟩],
        .txn 1 [⟨"Assets:Test1", some ⟨some (-1), "X"⟩, some ⟨some 1, "GBP", none⟩,
          none, none⟩]]
      [⟨(0, 0), 0, 0, 2, 1, 2, false⟩, ⟨(1, 0), 2, 1, -1, 1, -1, true⟩]
      = some ([.txn 0 [⟨"Assets:Test1", some ⟨some 2, "X"⟩, some ⟨some 1, "GBP", some 0⟩,
            none, none⟩],
          .txn 1 [⟨"Assets:Test1", some ⟨some (-1), "X"⟩, some ⟨some 1, "GBP", some 1⟩,
            none, none⟩]], [(0, 2), (0, -1)]) := by
    norm_num [processHistory, get_realizing_cost_consideration, costAvgLoop,
      processTradesLoop, processTradeStep, invAdd, List.get?, List.set, List.head?, List.tail]
  ⟨h, cost_avg_value_conservation "Assets:Test1" "Equity:Gains" _ _ _ _ h⟩

/-- Counterexample to claim C3 as stated: for the same two-trade history,
the counter-amounts sum to 0 and the recorded considerations of
non-realizing trades sum to 2, but the recorded considerations of all
trades sum to 1, so the claimed equation fails. -/
theorem cost_avg_conservation_counterexample :
    processHistory "Assets:Test1" "Equity:Gains" false
        [.txn 0 [⟨"Assets:Test1", some ⟨some 2, "X"⟩, some ⟨some 1, "GBP", none⟩, none, none⟩],
          .txn 1 [⟨"Assets:Test1", some ⟨some (-1), "X"⟩, some ⟨some 1, "GBP", none⟩,
            none, none⟩]]
        [⟨(0, 0), 0, 0, 2, 1, 2, false⟩, ⟨(1, 0), 2, 1, -1, 1, -1, true⟩]
      = some ([.txn 0 [⟨"Assets:Test1", some ⟨some 2, "X"⟩, some ⟨some 1, "GBP", some 0⟩,
            none, none⟩],
          .txn 1 [⟨"Assets:Test1", some ⟨some (-1), "X"⟩, some ⟨some 1, "GBP", some 1⟩,
            none, none⟩]], [(0, 2), (0, -1)]) ∧
    ¬ ((([((0 : ℚ), (2 : ℚ)), (0, -1)] : List (ℚ × ℚ)).map (fun p => p.1)).sum
        + ((([⟨(0, 0), 0, 0, 2, 1, 2, false⟩,
              ⟨(1, 0), 2, 1, -1, 1, -1, true⟩] : List Trade).filter
            (fun t => !t.realizing)).map (fun t => t.consideration)).sum
      = (([⟨(0, 0), 0, 0, 2, 1, 2, false⟩, ⟨(1, 0), 2, 1, -1, 1, -1, true⟩] : List Trade).map
          (fun t => t.consideration)).sum) := by
  constructor
  · norm_num [processHistory, get_realizing_cost_consideration, costAvgLoop,
      processTradesLoop, processTradeStep, invAdd, List.get?, List.set, List.head?, List.tail]
  · norm_num [List.filter]

/-- Claim C2, evaluation at the failing input.  A transaction dated 5 with
two postings on the tracked account: one with a price but no cost (the
`missing cost?!?` path of the collection loop), one whose cost date 3
differs from the transaction date (an `add_posting` validation error).
Both failures are detected, yet `calc_gains` returns the literal empty
error list: the first is accumulated into a local list that is never
returned, the second is discarded at the call site. -/
theorem calc_gains_error_list_empty :
    (calcGainsCollect
        [("Assets:Test1", ⟨"Assets:Test1", "Equity:Gains", false, [], [], []⟩)]
        [.txn 5 [⟨"Assets:Test1", some ⟨some 10, "X"⟩, none, some ⟨some 5, "GBP"⟩, none⟩,
          ⟨"Assets:Test1", some ⟨some 4, "X"⟩, some ⟨some 5, "GBP", some 3⟩, none, none⟩]]).2.1
      = [PostErr.missingCost] ∧
    (calcGainsCollect
        [("Assets:Test1", ⟨"Assets:Test1", "Equity:Gains", false, [], [], []⟩)]
        [.txn 5 [⟨"Assets:Test1", some ⟨some 10, "X"⟩, none, some ⟨some 5, "GBP"⟩, none⟩,
          ⟨"Assets:Test1", some ⟨some 4, "X"⟩, some ⟨some 5, "GBP", some 3⟩, none, none⟩]]).2.2
      = [PostErr.costDateMismatch] ∧
    calcGains [("Assets:Test1", ⟨"Assets:Test1", "Equity:Gains", false, [], [], []⟩)]
        [.txn 5 [⟨"Assets:Test1", some ⟨some 10, "X"⟩, none, some ⟨some 5, "GBP"⟩, none⟩,
          ⟨"Assets:Test1", some ⟨some 4, "X"⟩, some ⟨some 5, "GBP", some 3⟩, none, none⟩]]
      = some ([.txn 5 [⟨"Assets:Test1", some ⟨some 10, "X"⟩, none, some ⟨some 5, "GBP"⟩, none⟩,
          ⟨"Assets:Test1", some ⟨some 4, "X"⟩, some ⟨some 5, "GBP", some 3⟩, none, none⟩]],
        []) := by
  refine ⟨?_, ?_, ?_⟩ <;>
    norm_num [calcGains, calcGainsCollect, collectEntries, collectPostings, collectPost,
      addPosting, addPostingRest, addPostingTrade, upsert, appendHist,
      processAllAccounts, processAccount, processAccountGo, List.lookup,
      Option.some_ne_none, Option.isSome]

end CalcGains

namespace ClearLots

/-- A cost lot attached to a posting, as the residual-lot clearer sees it:
number, currency and acquisition date. -/
structure SCost where
  number : ℚ
  currency : String
  date : ℤ
deriving Repr, DecidableEq

/-- A posting for the residual-lot clearer: account, units number and
currency, and an optional cost lot. -/
structure CPosting where
  account : String
  number : ℚ
  currency : String
  cost : Option SCost
deriving Repr, DecidableEq

/-- An entry as `clear_residual_lots.py` distinguishes them: a `Close`
directive, a transaction, or anything else. -/
inductive CEntry where
  | close (account : String) (date : ℤ)
  | txn (date : ℤ) (postings : List CPosting)
  | other
deriving Repr, DecidableEq

/-- A beancount inventory key: `(units.currency, cost)`. -/
abbrev CKey := String × Option SCost

/-- Beancount `Inventory.add_position` for the clearer's inventories:
merge same-key quantities, deleting a position that reaches zero; zero is
never stored. -/
def invAdd (inv : List (CKey × ℚ)) (k : CKey) (n : ℚ) : List (CKey × ℚ) :=
  match inv with
  | [] => if n = 0 then [] else [(k, n)]
  | (k', v') :: rest =>
    if k' = k then
      if v' + n = 0 then rest else (k', v' + n) :: rest
    else (k', v') :: invAdd rest k n

/-- Insert-or-update on an association list keyed by account name
(Python `dict` assignment: position of an existing key is kept). -/
def upsertD (l : List (String × ℤ)) (k : String) (v : ℤ) : List (String × ℤ) :=
  match l with
  | [] => [(k, v)]
  | (k', v') :: rest => if k' = k then (k', v) :: rest else (k', v') :: upsertD rest k v

/-- The closed-account table (`clear_residual_lots.py` line 59):
`{entry.account: entry.date for entry in entries if isinstance(entry, Close)}`. -/
def closedAccounts (entries : List CEntry) : List (String × ℤ) :=
  entries.foldl
    (fun acc e =>
      match e with
      | .close a d => upsertD acc a d
      | _ => acc)
    []

/-- The per-account residual inventories, as an association list in
first-touch order (`defaultdict(Inventory)`). -/
abbrev RMap := List (String × List (CKey × ℚ))

/-- `residual_inventories[posting.account].add_position(posting)`:
defaultdict access creates the account's inventory on first touch. -/
def rInsert (m : RMap) (a : String) (p : CPosting) : RMap :=
  match m with
  | [] => [(a, invAdd [] (p.currency, p.cost) p.number)]
  | (a', inv) :: rest =>
    if a' = a then (a', invAdd inv (p.currency, p.cost) p.number) :: rest
    else (a', inv) :: rInsert rest a p

def scanPostings (closed : List (String × ℤ)) (m : RMap) : List CPosting → RMap
  | [] => m
  | p :: ps =>
    scanPostings closed
      (if (List.lookup p.account closed).isSome then rInsert m p.account p else m) ps

/-- The inventory-accumulation scan (`clear_residual_lots.py` lines
66-71): every posting of every transaction whose account is closed. -/
def scanEntries (closed : List (String × ℤ)) (m : RMap) : List CEntry → RMap
  | [] => m
  | .txn _ ps :: rest => scanEntries closed (scanPostings closed m ps) rest
  | .close _ _ :: rest => scanEntries closed m rest
  | .other :: rest => scanEntries closed m rest

def residuals (entries : List CEntry) : RMap :=
  scanEntries (closedAccounts entries) [] entries

/-- The posting pairs of one balancing transaction
(`clear_residual_lots.py` lines 82-90): for every nonzero lot, negate it
on the account and mirror it on the balance account. -/
def mkClearPostings (balAcct a : String) : List (CKey × ℚ) → List CPosting
  | [] => []
  | ((cur, cost), n) :: rest =>
    if n = 0 then mkClearPostings balAcct a rest
    else ⟨a, -n, cur, cost⟩ :: ⟨balAcct, n, cur, cost⟩ :: mkClearPostings balAcct a rest

/-- The balancing transaction generated for one account
(`clear_residual_lots.py` lines 75-102): skipped when the inventory is
empty or produces no postings; dated one day before the close date. -/
def mkBalTxn (balAcct : String) (closed : List (String × ℤ))
    (entry : String × List (CKey × ℚ)) : Option CEntry :=
  if entry.2.isEmpty then none
  else if (mkClearPostings balAcct entry.1 entry.2).isEmpty then none
  else
    match List.lookup entry.1 closed with
    | some d => some (.txn (d - 1) (mkClearPostings balAcct entry.1 entry.2))
    | none => none

def balancingTxns (balAcct : String) (entries : List CEntry) : List CEntry :=
  (residuals entries).filterMap (mkBalTxn balAcct (closedAccounts entries))

/-- `clear_residual_lots` (`clear_residual_lots.py` lines 37-108), after
the configuration check: early return when nothing is closed or no
balancing transaction was generated, otherwise the balancing transactions
are appended to the entry list. -/
def clear_residual_lots (balAcct : String) (entries : List CEntry) : List CEntry :=
  let closed := closedAccounts entries
  if closed.isEmpty then entries
  else
    let txns := balancingTxns balAcct entries
    if txns.isEmpty then entries
    else entries ++ txns

/-- The residual inventory accumulated for one account over the whole
entry list. -/
def residualOf (entries : List CEntry) (a : String) : List (CKey × ℚ) :=
  (List.lookup a (residuals entries)).getD []

/-- Recognizer for a balancing transaction generated for account `a`: its
first posting negates a lot on `a`. -/
def isTxnFor (a : String) (e : CEntry) : Bool :=
  match e with
  | .txn _ ps =>
    match ps.head? with
    | some p => p.account = a
    | none => false
  | _ => false

theorem isEmpty_iff_nil {α : Type} (l : List α) : l.isEmpty = true ↔ l = [] := by
  cases l <;> simp

theorem invAdd_nonzero (inv : List (CKey × ℚ)) (k : CKey) (n : ℚ)
    (h : ∀ kv ∈ inv, kv.2 ≠ 0) : ∀ kv ∈ invAdd inv k n, kv.2 ≠ 0 := by
  induction inv with
  | nil =>
    intro kv hkv
    by_cases hn : n = 0
    · simp [invAdd, hn] at hkv
    · simp [invAdd, hn] at hkv
      rw [hkv]
      exact hn
  | cons head rest ih =>
    obtain ⟨k', v'⟩ := head
    intro kv hkv
    unfold invAdd at hkv
    by_cases hk : k' = k
    · rw [if_pos hk] at hkv
      by_cases hv : v' + n = 0
      · rw [if_pos hv] at hkv
        exact h kv (List.mem_cons_of_mem _ hkv)
      · rw [if_neg hv] at hkv
        rcases List.mem_cons.mp hkv with h1 | h1
        · rw [h1]
          exact hv
        · exact h kv (List.mem_cons_of_mem _ h1)
    · rw [if_neg hk] at hkv
      rcases List.mem_cons.mp hkv with h1 | h1
      · rw [h1]
        exact h (k', v') (by simp)
      · exact ih (fun kv hkv => h kv (List.mem_cons_of_mem _ hkv)) kv h1

theorem rInsert_keys (m : RMap) (a : String) (p : CPosting) :
    (rInsert m a p).map Prod.fst
      = if a ∈ m.map Prod.fst then m.map Prod.fst else m.map Prod.fst ++ [a] := by
  induction m with
  | nil => simp [rInsert]
  | cons kv rest ih =>
    obtain ⟨a', inv'⟩ := kv
    by_cases hk : a' = a
    · subst hk
      simp [rInsert]
    · simp only [rInsert, if_neg hk, List.map_cons, ih]
      have hne : ¬ a = a' := fun hcontra => hk hcontra.symm
      by_cases hmem : a ∈ rest.map Prod.fst
      · simp [hmem, hne]
      · simp [hmem, hne]

theorem rInsert_nodup (m : RMap) (a : String) (p : CPosting)
    (h : (m.map Prod.fst).Nodup) : ((rInsert m a p).map Prod.fst).Nodup := by
  rw [rInsert_keys]
  by_cases hmem : a ∈ m.map Prod.fst
  · rwa [if_pos hmem]
  · rw [if_neg hmem]
    rw [List.nodup_append]
    exact ⟨h, List.nodup_singleton a, by simpa using hmem⟩

theorem rInsert_nonzero (m : RMap) (a : String) (p : CPosting)
    (h : ∀ kv ∈ m, ∀ q ∈ kv.2, q.2 ≠ 0) :
    ∀ kv ∈ rInsert m a p, ∀ q ∈ kv.2, q.2 ≠ 0 := by
  induction m with
  | nil =>
    intro kv hkv
    simp only [rInsert, List.mem_singleton] at hkv
    rw [hkv]
    exact invAdd_nonzero [] (p.currency, p.cost) p.number (by simp)
  | cons head rest ih =>
    obtain ⟨a', inv'⟩ := head
    intro kv hkv
    unfold rInsert at hkv
    by_cases hk : a' = a
    · rw [if_pos hk] at hkv
      rcases List.mem_cons.mp hkv with h1 | h1
      · rw [h1]
        exact invAdd_nonzero inv' (p.currency, p.cost) p.number
          (h (a', inv') (by simp))
      · exact h kv (List.mem_cons_of_mem _ h1)
    · rw [if_neg hk] at hkv
      rcases List.mem_cons.mp hkv with h1 | h1
      · rw [h1]
        exact h (a', inv') (by simp)
      · exact ih (fun kv hkv => h kv (List.mem_cons_of_mem _ hkv)) kv h1

theorem scanPostings_pres (closed : List (String × ℤ)) (ps : List CPosting) (m : RMap)
    (h1 : (m.map Prod.fst).Nodup) (h2 : ∀ kv ∈ m, ∀ q ∈ kv.2, q.2 ≠ 0) :
    ((scanPostings closed m ps).map Prod.fst).Nodup ∧
      ∀ kv ∈ scanPostings closed m ps, ∀ q ∈ kv.2, q.2 ≠ 0 := by
  induction ps generalizing m with
  | nil => exact ⟨h1, h2⟩
  | cons p ps ih =>
    unfold scanPostings
    by_cases hc : (List.lookup p.account closed).isSome
    · rw [if_pos hc]
      exact ih _ (rInsert_nodup m p.account p h1) (rInsert_nonzero m p.account p h2)
    · rw [if_neg hc]
      exact ih _ h1 h2

theorem scanEntries_pres (closed : List (String × ℤ)) (es : List CEntry) (m : RMap)
    (h1 : (m.map Prod.fst).Nodup) (h2 : ∀ kv ∈ m, ∀ q ∈ kv.2, q.2 ≠ 0) :
    ((scanEntries closed m es).map Prod.fst).Nodup ∧
      ∀ kv ∈ scanEntries closed m es, ∀ q ∈ kv.2, q.2 ≠ 0 := by
  induction es generalizing m with
  | nil => exact ⟨h1, h2⟩
  | cons e rest ih =>
    cases e with
    | txn d ps =>
      unfold scanEntries
      obtain ⟨g1, g2⟩ := scanPostings_pres closed ps m h1 h2
      exact ih _ g1 g2
    | close a d => exact ih m h1 h2
    | other => exact ih m h1 h2

theorem residuals_nodup (entries : List CEntry) :
    ((residuals entries).map Prod.fst).Nodup :=
  (scanEntries_pres (closedAccounts entries) entries [] (by simp) (by simp)).1

theorem residuals_nonzero (entries : List CEntry) :
    ∀ kv ∈ residuals entries, ∀ q ∈ kv.2, q.2 ≠ 0 :=
  (scanEntries_pres (closedAccounts entries) entries [] (by simp) (by simp)).2

theorem mkClearPostings_cons (balAcct a : String) (inv : List (CKey × ℚ))
    (hnz : ∀ q ∈ inv, q.2 ≠ 0) (hne : inv ≠ []) :
    ∃ cur cost n rest, mkClearPostings balAcct a inv
      = ⟨a, -n, cur, cost⟩ :: ⟨balAcct, n, cur, cost⟩ :: rest := by
  match inv, hne with
  | ((cur, cost), n) :: rest, _ =>
    have hn : n ≠ 0 := hnz ((cur, cost), n) (by simp)
    exact ⟨cur, cost, n, mkClearPostings balAcct a rest, by simp [mkClearPostings, hn]⟩

theorem mkBalTxn_isTxnFor (balAcct : String) (closed : List (String × ℤ)) (a' : String)
    (inv' : List (CKey × ℚ)) (t : CEntry)
    (hmk : mkBalTxn balAcct closed (a', inv') = some t)
    (hnz : ∀ q ∈ inv', q.2 ≠ 0) :
    ∀ b, (isTxnFor b t = true ↔ a' = b) := by
  unfold mkBalTxn at hmk
  by_cases hemp : inv'.isEmpty
  · rw [if_pos hemp] at hmk
    simp at hmk
  · rw [if_neg hemp] at hmk
    have hne : inv' ≠ [] := by
      intro hcontra
      rw [hcontra] at hemp
      simp at hemp
    obtain ⟨cur, cost, n, rest, hmc⟩ := mkClearPostings_cons balAcct a' inv' hnz hne
    have hps : ¬ ((mkClearPostings balAcct a' inv').isEmpty = true) := by
      rw [hmc]
      simp
    rw [if_neg hps] at hmk
    cases hd : List.lookup a' closed with
    | none =>
      rw [hd] at hmk
      simp at hmk
    | some d =>
      rw [hd] at hmk
      have ht : t = .txn (d - 1) (mkClearPostings balAcct a' inv') := by
        simpa using hmk.symm
      subst ht
      intro b
      simp [isTxnFor, hmc]

theorem filter_isTxnFor_nil (balAcct : String) (closed : List (String × ℤ)) (a : String)
    (m : RMap) (hnz : ∀ kv ∈ m, ∀ q ∈ kv.2, q.2 ≠ 0)
    (ha : a ∉ m.map Prod.fst) :
    (m.filterMap (mkBalTxn balAcct closed)).filter (isTxnFor a) = [] := by
  induction m with
  | nil => simp
  | cons kv rest ih =>
    obtain ⟨a', inv'⟩ := kv
    have ha' : a' ≠ a := by
      intro hcontra
      exact ha (by simp [hcontra])
    have harest : a ∉ rest.map Prod.fst := by
      intro hcontra
      exact ha (by simp [hcontra])
    have hrec := ih (fun kv hkv => hnz kv (List.mem_cons_of_mem _ hkv)) harest
    simp only [List.filterMap_cons]
    cases hmk : mkBalTxn balAcct closed (a', inv') with
    | none => exact hrec
    | some t =>
      have hfor := mkBalTxn_isTxnFor balAcct closed a' inv' t hmk
        (hnz (a', inv') (by simp)) a
      have : isTxnFor a t = false := by
        rw [Bool.eq_false_iff]
        intro hcontra
        exact ha' (hfor.mp hcontra)
      simp [List.filter_cons, this, hrec]

theorem filterMap_filter_key (balAcct : String) (closed : List (String × ℤ)) (a : String)
    (m : RMap) (hnod : (m.map Prod.fst).Nodup)
    (hnz : ∀ kv ∈ m, ∀ q ∈ kv.2, q.2 ≠ 0) :
    (m.filterMap (mkBalTxn balAcct closed)).filter (isTxnFor a)
      = match List.lookup a m with
        | none => []
        | some inv =>
          if inv.isEmpty then []
          else
            match List.lookup a closed with
            | some d => [CEntry.txn (d - 1) (mkClearPostings balAcct a inv)]
            | none => [] := by
  induction m with
  | nil => simp
  | cons kv rest ih =>
    obtain ⟨a', inv'⟩ := kv
    have hnodrest : (rest.map Prod.fst).Nodup := by
      simp only [List.map_cons, List.nodup_cons] at hnod
      exact hnod.2
    have hnotin : a' ∉ rest.map Prod.fst := by
      simp only [List.map_cons, List.nodup_cons] at hnod
      exact hnod.1
    have hnzrest : ∀ kv ∈ rest, ∀ q ∈ kv.2, q.2 ≠ 0 :=
      fun kv hkv => hnz kv (List.mem_cons_of_mem _ hkv)
    have hnzinv : ∀ q ∈ inv', q.2 ≠ 0 := hnz (a', inv') (by simp)
    by_cases hk : a' = a
    · subst hk
      have hlook : List.lookup a' ((a', inv') :: rest) = some inv' := by
        simp [List.lookup]
      rw [hlook]
      simp only [List.filterMap_cons]
      have hrest0 : (rest.filterMap (mkBalTxn balAcct closed)).filter (isTxnFor a') = [] :=
        filter_isTxnFor_nil balAcct closed a' rest hnzrest hnotin
      by_cases hemp : inv'.isEmpty
      · have hmk : mkBalTxn balAcct closed (a', inv') = none := by
          unfold mkBalTxn
          rw [if_pos (by simpa using hemp)]
        rw [hmk, if_pos hemp]
        exact hrest0
      · have hne : inv' ≠ [] := by
          intro hcontra
          rw [hcontra] at hemp
          simp at hemp
        obtain ⟨cur, cost, n, rest2, hmc⟩ :=
          mkClearPostings_cons balAcct a' inv' hnzinv hne
        have hps : ¬ ((mkClearPostings balAcct a' inv').isEmpty = true) := by
          rw [hmc]
          simp
        cases hd : List.lookup a' closed with
        | none =>
          have hmk : mkBalTxn balAcct closed (a', inv') = none := by
            unfold mkBalTxn
            rw [if_neg (by simpa using hemp), if_neg hps, hd]
          rw [hmk, if_neg hemp]
          dsimp only
          exact hrest0
        | some d =>
          have hmk : mkBalTxn balAcct closed (a', inv')
              = some (.txn (d - 1) (mkClearPostings balAcct a' inv')) := by
            unfold mkBalTxn
            rw [if_neg (by simpa using hemp), if_neg hps, hd]
          rw [hmk, if_neg hemp]
          dsimp only
          have htrue : isTxnFor a' (CEntry.txn (d - 1) (mkClearPostings balAcct a' inv'))
              = true := by
            simp [isTxnFor, hmc]
          rw [List.filter_cons_of_pos (by exact htrue), hrest0]
    · have hlook : List.lookup a ((a', inv') :: rest) = List.lookup a rest := by
        have hne2 : (a == a') = false := by
          simp only [beq_eq_false_iff_ne, ne_eq]
          exact fun hcontra => hk hcontra.symm
        simp [List.lookup, hne2]
      rw [hlook]
      simp only [List.filterMap_cons]
      cases hmk : mkBalTxn balAcct closed (a', inv') with
      | none => exact ih hnodrest hnzrest
      | some t =>
        have hfor := mkBalTxn_isTxnFor balAcct closed a' inv' t hmk hnzinv a
        have hfalse : isTxnFor a t = false := by
          rw [Bool.eq_false_iff]
          intro hcontra
          exact hk (hfor.mp hcontra)
        rw [List.filter_cons_of_neg (by simp [hfalse])]
        exact ih hnodrest hnzrest

theorem scanPostings_closed_nil (m : RMap) (ps : List CPosting) :
    scanPostings [] m ps = m := by
  induction ps generalizing m with
  | nil => rfl
  | cons p ps ih =>
    unfold scanPostings
    simp only [List.lookup_nil, Option.isSome_none, Bool.false_eq_true, if_false]
    exact ih m

theorem scanEntries_closed_nil (m : RMap) (es : List CEntry) :
    scanEntries [] m es = m := by
  induction es generalizing m with
  | nil => rfl
  | cons e rest ih =>
    cases e with
    | txn d ps =>
      unfold scanEntries
      rw [scanPostings_closed_nil]
      exact ih m
    | close a d => exact ih m
    | other => exact ih m

theorem clear_residual_eq_append (balAcct : String) (entries : List CEntry) :
    clear_residual_lots balAcct entries = entries ++ balancingTxns balAcct entries := by
  unfold clear_residual_lots
  by_cases hc : (closedAccounts entries).isEmpty
  · rw [if_pos hc]
    have hnil : closedAccounts entries = [] := (isEmpty_iff_nil _).mp hc
    have hb : balancingTxns balAcct entries = [] := by
      unfold balancingTxns residuals
      rw [hnil, scanEntries_closed_nil]
      simp
    rw [hb, List.append_nil]
  · rw [if_neg hc]
    by_cases ht : (balancingTxns balAcct entries).isEmpty
    · rw [if_pos ht]
      rw [(isEmpty_iff_nil _).mp ht, List.append_nil]
    · rw [if_neg ht]

/-- Claim C6: the residual-lot clearer returns the original entries with
the balancing transactions appended; for every account with a close
directive, the appended list contains exactly one transaction for that
account when its accumulated inventory is non-empty — dated one day
before the close date and consisting, for every nonzero lot, of a pair of
postings negating the lot on the account and mirroring it on the
write-down account — and no transaction when the inventory nets to
exactly zero. -/
theorem clear_residual_lots_spec (balAcct : String) (entries : List CEntry) (a : String)
    (d : ℤ) (hclosed : List.lookup a (closedAccounts entries) = some d) :
    clear_residual_lots balAcct entries = entries ++ balancingTxns balAcct entries ∧
    (balancingTxns balAcct entries).filter (isTxnFor a)
      = if (residualOf entries a).isEmpty then []
        else [CEntry.txn (d - 1) (mkClearPostings balAcct a (residualOf entries a))] := by
  refine ⟨clear_residual_eq_append balAcct entries, ?_⟩
  unfold balancingTxns
  rw [filterMap_filter_key balAcct (closedAccounts entries) a (residuals entries)
    (residuals_nodup entries) (residuals_nonzero entries)]
  unfold residualOf
  cases hl : List.lookup a (residuals entries) with
  | none => simp
  | some inv =>
    simp only [Option.getD_some]
    by_cases hemp : inv.isEmpty
    · rw [if_pos hemp, if_pos hemp]
    · rw [if_neg hemp, if_neg hemp, hclosed]

/-- Witness for `clear_residual_lots_spec`: a 10-unit lot bought at 100
into an account closed at day 365; the clearer appends exactly one
balancing transaction dated day 364 with the negate-and-mirror pair. -/
theorem clear_residual_lots_spec_witness :
    List.lookup "Assets:Investments"
        (closedAccounts
          [.txn 0 [⟨"Assets:Investments", 10, "TEST", some ⟨100, "USD", 0⟩⟩],
            .close "Assets:Investments" 365]) = some 365 ∧
    (clear_residual_lots "Equity:Gains"
          [.txn 0 [⟨"Assets:Investments", 10, "TEST", some ⟨100, "USD", 0⟩⟩],
            .close "Assets:Investments" 365]
        = [.txn 0 [⟨"Assets:Investments", 10, "TEST", some ⟨100, "USD", 0⟩⟩],
            .close "Assets:Investments" 365]
          ++ balancingTxns "Equity:Gains"
            [.txn 0 [⟨"Assets:Investments", 10, "TEST", some ⟨100, "USD", 0⟩⟩],
              .close "Assets:Investments" 365] ∧
      (balancingTxns "Equity:Gains"
          [.txn 0 [⟨"Assets:Investments", 10, "TEST", some ⟨100, "USD", 0⟩⟩],
            .close "Assets:Investments" 365]).filter (isTxnFor "Assets:Investments")
        = if (residualOf
              [.txn 0 [⟨"Assets:Investments", 10, "TEST", some ⟨100, "USD", 0⟩⟩],
                .close "Assets:Investments" 365] "Assets:Investments").isEmpty then []
          else [CEntry.txn (365 - 1) (mkClearPostings "Equity:Gains" "Assets:Investments"
            (residualOf
              [.txn 0 [⟨"Assets:Investments", 10, "TEST", some ⟨100, "USD", 0⟩⟩],
                .close "Assets:Investments" 365] "Assets:Investments"))]) :=
  have hclosed : List.lookup "Assets:Investments"
      (closedAccounts
        [.txn 0 [⟨"Assets:Investments", 10, "TEST", some ⟨100, "USD", 0⟩⟩],
          .close "Assets:Investments" 365]) = some 365 := by
    norm_num [closedAccounts, upsertD, List.lookup]
  ⟨hclosed, clear_residual_lots_spec "Equity:Gains" _ "Assets:Investments" 365 hclosed⟩

end ClearLots

end BeancountBlue
